import Mathlib

/-!
# Verification of the tiptap mention extension core (`src/lib/mention.ts`)

A shallow embedding of the mention extension's core: the trigger-match
scanner (`findSuggestionMatch`), the suggestion plugin state machine
(`state.init` / `state.apply`), the view-update hook dispatch, and the
commit `command`.  Text is modelled as `List Char`; document positions are
`Nat`; nullable fields are `Option`.
-/

namespace Mention

/-- The trigger character `char = '@'`. -/
def trigger : Char := '@'

/-- The non-printable placeholder used by `textBetween` for non-text nodes
(`'\0'`, NUL). -/
def placeholder : Char := Char.ofNat 0

/-- JavaScript's `\s` character class: tab through carriage return, space,
no-break space, ogham space mark, the U+2000–U+200A range, line/paragraph
separators, narrow no-break space, medium mathematical space, ideographic
space, and the BOM. -/
def jsWs (c : Char) : Bool :=
  let n := c.toNat
  (9 ≤ n && n ≤ 13) || n = 32 || n = 0xA0 || n = 0x1680 ||
  (0x2000 ≤ n && n ≤ 0x200A) || n = 0x2028 || n = 0x2029 ||
  n = 0x202F || n = 0x205F || n = 0x3000 || n = 0xFEFF

/-- JavaScript line terminators: `\n`, `\r`, U+2028, U+2029.  The dot of a
regex without the `s` flag matches every character except these, and a
multiline `$` matches exactly before them. -/
def isLineTerm (c : Char) : Bool :=
  c.toNat = 10 || c.toNat = 13 || c.toNat = 0x2028 || c.toNat = 0x2029

/-- One character of the allow-set `/^[A-Za-zÀ-ÖØ-öø-ÿ0-9'",()\-\s]*$/`. -/
def allowedChar (c : Char) : Bool :=
  let n := c.toNat
  (0x41 ≤ n && n ≤ 0x5A) || (0x61 ≤ n && n ≤ 0x7A) ||
  (0xC0 ≤ n && n ≤ 0xD6) || (0xD8 ≤ n && n ≤ 0xF6) ||
  (0xF8 ≤ n && n ≤ 0xFF) || (0x30 ≤ n && n ≤ 0x39) ||
  n = 39 || n = 34 || c = ',' || c = '(' || c = ')' || c = '-' || jsWs c

/-- The disallow-prefix test `/^[,\s]/`: true when the string starts with a
comma or a whitespace character. -/
def startsDisallowed (s : List Char) : Bool :=
  match s with
  | [] => false
  | c :: _ => c = ',' || jsWs c

/-- `text.split(char)[1]` — the segment of `text` strictly between the first
trigger character and the following trigger character (or the end of the
text); `none` when the text has no trigger character (JS yields
`undefined`). -/
def splitAfterTrigger : List Char → Option (List Char)
  | [] => none
  | c :: rest =>
    if c = trigger then some (rest.takeWhile (fun d => !(d == trigger)))
    else splitAfterTrigger rest

/-- The guard `allowedChars.test(textAfter) && !disallowedStartsWithChars.test(textAfter)`.
When `textAfter` is JS `undefined`, `test` coerces it to the string
`"undefined"`, which is all letters and does not start with a comma or
whitespace, so both tests pass. -/
def allowedOf (text : List Char) : Bool :=
  match splitAfterTrigger text with
  | none => true
  | some s => s.all allowedChar && !startsDisallowed s

/-- Number of characters the lazy `.*?` of `@.*?(?=\s@|$)` (flags `gm`)
consumes when started on `l`, the text just after the matched trigger
character: consume until the first position that is the end of the input, a
line terminator (a multiline `$`, which is also where `.` stops), or a
whitespace character followed by the trigger character (the `\s@`
lookahead). -/
def takeMatchLen : List Char → Nat
  | [] => 0
  | c :: rest =>
    if isLineTerm c then 0
    else if jsWs c && rest.head? == some trigger then 0
    else 1 + takeMatchLen rest

/-- All matches of `@.*?(?=\s@|$)` (flags `gm`) over the text, fuelled (the
fuel only needs to be at least the length of the remaining text).  Each
match is a pair `(index, end)`, half-open; the next search resumes at the
previous match's end, as `matchAll` does via `lastIndex`. -/
def scanAux (fuel : Nat) (l : List Char) (idx : Nat) : List (Nat × Nat) :=
  match fuel, l with
  | 0, _ => []
  | _, [] => []
  | fuel + 1, c :: rest =>
    if c = trigger then
      let n := takeMatchLen rest
      (idx, idx + 1 + n) :: scanAux fuel (rest.drop n) (idx + 1 + n)
    else scanAux fuel rest (idx + 1)

/-- `Array.from(text.matchAll(regexp))` as index/end pairs. -/
def scanMatches (text : List Char) : List (Nat × Nat) :=
  scanAux text.length text 0

/-- The look-behind emulation `/^[\s\0]?$/` applied to
`match.input.slice(Math.max(0, match.index - 1), match.index)`: the slice is
empty (the match starts the text) or its single character is whitespace or
the placeholder. -/
def lookBehind (l : List Char) : Bool :=
  match l with
  | [] => true
  | [c] => jsWs c || c = placeholder
  | _ => false

/-- The widening test `/\s@$/` applied to the two-character slice
`text.slice(to - 1, to + 1)`. -/
def suffixTest (l : List Char) : Bool :=
  match l with
  | [a, b] => jsWs a && b = trigger
  | _ => false

/-- A half-open document range.  `from` is a Lean keyword, hence the
guillemets. -/
structure SRange where
  «from» : Nat
  «to» : Nat
deriving DecidableEq, Repr

/-- The scanner's result (`SuggestionMatch`). -/
structure SuggestionMatch where
  range : SRange
  query : List Char
  text : List Char
deriving DecidableEq, Repr

/-- `findSuggestionMatch($position)`, the trigger-match scanner.  Its
document inputs are flattened to: `text`, the slice from the block start to
the cursor extracted by `textBetween` (placeholder `'\0'` for non-text
nodes); `startOff`, the value of `$position.start()` added to match indices
to obtain absolute offsets; and `pos`, the cursor's absolute position
`$position.pos`. -/
def findSuggestionMatch (text : List Char) (startOff pos : Nat) :
    Option SuggestionMatch :=
  match (scanMatches text).getLast? with
  | none => none
  | some (j, q) =>
    -- `if (!match || match.input === undefined || match.index === undefined || !allowed)`
    if !allowedOf text then none
    -- the look-behind emulation on the single preceding character
    else if !lookBehind ((text.take j).drop (j - 1)) then none
    else
      let mtext := (text.take q).drop j
      let f := j + startOff
      let t := f + mtext.length
      -- edge-case widening; the code slices `text` with the absolute `to`
      let widened := suffixTest ((text.take (t + 1)).drop (t - 1))
      let mtext2 := if widened then mtext ++ [' '] else mtext
      let t2 := if widened then t + 1 else t
      if f < pos && pos ≤ t2 then
        some ⟨⟨f, t2⟩, mtext2.drop 1, mtext2⟩
      else none

/-- The plugin's internal state.  The inactive state's `range: {}` (an empty
object, its fields `undefined`) is modelled as `none`. -/
structure PluginState where
  active : Bool
  range : Option SRange
  query : Option (List Char)
  text : Option (List Char)
  decorationId : Option String
deriving DecidableEq, Repr

/-- The state returned by `init()` and by every non-matching branch of
`apply`. -/
def inactiveState : PluginState :=
  { active := false, range := none, query := none, text := none,
    decorationId := none }

/-- `state.init()` — the literal it returns coincides with the inactive
state produced by `apply`'s non-matching branches. -/
def init : PluginState :=
  { active := false, range := none, query := none, text := none,
    decorationId := none }

/-- The fresh identifier `` `id_${Math.floor(Math.random() * 0xffffffff)}` ``;
the random draw is an input of the model. -/
def freshId (rand : Nat) : String :=
  "id_" ++ Nat.repr rand

/-- The per-transaction inputs consumed by `state.apply`: whether
`transaction.selection.empty` holds, whether `editor.view.composing` holds,
the scanner's flattened document inputs at `selection.$from`, the host's
`options.allow` predicate (`allow?.()` on a missing option is modelled as
the constantly-false predicate), and the random draw used if a fresh
`decorationId` is needed. -/
structure TxInput where
  empty : Bool
  composing : Bool
  text : List Char
  startOff : Nat
  pos : Nat
  allow : SRange → Bool
  rand : Nat

/-- `state.apply(transaction, prev)`: when the selection is collapsed or a
composition is in progress, re-run the scanner; on an allowed match build a
fresh active state, carrying the previous `decorationId` forward when it is
truthy (a JS string is truthy exactly when it is non-empty) and drawing a
fresh one otherwise; in every other case return the inactive state. -/
def apply (tx : TxInput) (prev : PluginState) : PluginState :=
  if tx.empty || tx.composing then
    match findSuggestionMatch tx.text tx.startOff tx.pos with
    | some m =>
      if tx.allow m.range then
        { active := true, range := some m.range, query := some m.query,
          text := some m.text,
          decorationId := some (match prev.decorationId with
            | some d => if d.isEmpty then freshId tx.rand else d
            | none => freshId tx.rand) }
      else inactiveState
    | none => inactiveState
  else inactiveState

/-- The `range`/`query`/`text` triple a lifecycle hook receives (the
`editor`, `command` and `decorationId` members of `MentionProps` are
capabilities, not data, and are not part of the comparison the claims
make). -/
structure HookProps where
  range : Option SRange
  query : Option (List Char)
  text : Option (List Char)
deriving DecidableEq, Repr

/-- Project the hook-visible data out of a plugin state. -/
def dataOf (s : PluginState) : HookProps :=
  ⟨s.range, s.query, s.text⟩

/-- A recorded lifecycle hook invocation. -/
inductive HookCall where
  | exit : HookProps → HookCall
  | update : HookProps → HookCall
  | start : HookProps → HookCall
deriving DecidableEq, Repr

/-- `prev.range.from` as the JS expression reads it: `undefined` for the
inactive `{}` range. -/
def fromOf (s : PluginState) : Option Nat :=
  s.range.map (fun r => r.«from»)

/-- The plugin view's `update(view, prevState)` callback: classify the
transition between the previous and next plugin states and return the
lifecycle hook invocations it performs, in order.  The single `props` value
is built from `state = handleExit && !handleStart ? prev : next` and passed
to every hook fired in this update. -/
def viewUpdate (prev next : PluginState) : List HookCall :=
  let moved := prev.active && next.active && !(fromOf prev == fromOf next)
  let started := !prev.active && next.active
  let stopped := prev.active && !next.active
  let changed := !started && !stopped && !(prev.query == next.query)
  let handleStart := started || moved
  let handleChange := changed && !moved
  let handleExit := stopped || moved
  if !handleStart && !handleChange && !handleExit then []
  else
    let st := if handleExit && !handleStart then prev else next
    let props := dataOf st
    (if handleExit then [HookCall.exit props] else []) ++
    (if handleChange then [HookCall.update props] else []) ++
    (if handleStart then [HookCall.start props] else [])

/-- A mention node's attributes (`Record<string, string>`). -/
def Attrs := List (String × String)
deriving instance DecidableEq, Repr for Attrs

/-- One inline item of the flat document model: a text character, a mention
node, or some other atomic inline node.  Each item occupies one document
offset. -/
inductive DocItem where
  | ch : Char → DocItem
  | mention : Attrs → DocItem
  | atom : DocItem
deriving DecidableEq, Repr

/-- `selection.$to.nodeAfter?.text?.startsWith(' ')`: the node after offset
`p` is a text node exactly when the item at `p` is a character (the text of
the node sliced at `p` then begins with that character); `.text` of an
atomic node is `undefined`, and past the end `nodeAfter` is `null`. -/
def nodeAfterStartsWithSpace (doc : List DocItem) (p : Nat) : Bool :=
  match doc.get? p with
  | some (DocItem.ch c) => c = ' '
  | _ => false

/-- Inputs of the `command` closure a lifecycle hook receives: the captured
session state's `range`, the document, the end offset of the editor's
current selection at invocation time, and the caller-supplied mention
attributes. -/
structure CommandInput where
  doc : List DocItem
  range : SRange
  selTo : Nat
  attrs : Attrs

/-- Result of running `command`: the document after the splice, and the
captured session's `range` as the closure leaves it (the code executes
`state.range.to += 1` in place before the splice when the space override
applies). -/
structure CommandResult where
  doc : List DocItem
  range : SRange
deriving DecidableEq, Repr

/-- The `command(mentionProps)` closure: optionally extend `range.to` by
one when the node after the current selection end is a text node starting
with a space, then replace `[range.from, range.to)` by the mention node
followed by a single space text node. -/
def command (inp : CommandInput) : CommandResult :=
  let so := nodeAfterStartsWithSpace inp.doc inp.selTo
  let to2 := if so then inp.range.«to» + 1 else inp.range.«to»
  { doc := inp.doc.take inp.range.«from» ++
      [DocItem.mention inp.attrs, DocItem.ch ' '] ++ inp.doc.drop to2,
    range := ⟨inp.range.«from», to2⟩ }

/-- Whether the item at offset `p` is a whitespace text character (used to
state the spec's one-trailing-whitespace invariant about the document a
commit produces). -/
def wsItemAt (doc : List DocItem) (p : Nat) : Bool :=
  match doc.get? p with
  | some (DocItem.ch c) => c.isWhitespace
  | _ => false

/-- The text following offset `t` begins with at most one leading
whitespace character, and if one is present it is a plain space: either the
item at `t` is a space and the item after it is not whitespace, or the item
at `t` is not a whitespace character (or not a text character at all). -/
def followOk (doc : List DocItem) (t : Nat) : Bool :=
  match doc.get? t with
  | some (DocItem.ch c) =>
    if c = ' ' then !wsItemAt doc (t + 1) else !c.isWhitespace
  | _ => true

/-! ## Helper lemmas about the scanner -/

theorem takeMatchLen_le (l : List Char) : takeMatchLen l ≤ l.length := by
  induction l with
  | nil => simp [takeMatchLen]
  | cons c rest ih =>
    simp only [takeMatchLen, List.length_cons]
    split
    · omega
    · split
      · omega
      · omega

theorem scanAux_bounds (fuel : Nat) :
    ∀ (l : List Char) (idx j q : Nat), (j, q) ∈ scanAux fuel l idx →
      idx ≤ j ∧ j + 1 ≤ q ∧ q ≤ idx + l.length := by
  induction fuel with
  | zero => intro l idx j q h; simp [scanAux] at h
  | succ fuel ih =>
    intro l idx j q h
    match l with
    | [] => simp [scanAux] at h
    | c :: rest =>
      by_cases hct : c = trigger
      · simp only [scanAux, if_pos hct] at h
        rcases List.mem_cons.mp h with h | h
        · simp only [Prod.mk.injEq] at h
          obtain ⟨rfl, rfl⟩ := h
          have := takeMatchLen_le rest
          simp only [List.length_cons]
          omega
        · have hb := ih (rest.drop (takeMatchLen rest)) (idx + 1 + takeMatchLen rest) j q h
          have hd : (rest.drop (takeMatchLen rest)).length = rest.length - takeMatchLen rest :=
            List.length_drop ..
          have := takeMatchLen_le rest
          simp only [List.length_cons]
          omega
      · simp only [scanAux, if_neg hct] at h
        have hb := ih rest (idx + 1) j q h
        simp only [List.length_cons]
        omega

theorem scanAux_trigger (fuel : Nat) :
    ∀ (l : List Char) (idx j q : Nat), (j, q) ∈ scanAux fuel l idx →
      l.get? (j - idx) = some trigger := by
  induction fuel with
  | zero => intro l idx j q h; simp [scanAux] at h
  | succ fuel ih =>
    intro l idx j q h
    match l with
    | [] => simp [scanAux] at h
    | c :: rest =>
      by_cases hct : c = trigger
      · simp only [scanAux, if_pos hct] at h
        rcases List.mem_cons.mp h with h | h
        · simp only [Prod.mk.injEq] at h
          obtain ⟨rfl, rfl⟩ := h
          simp [hct]
        · have hb := scanAux_bounds fuel (rest.drop (takeMatchLen rest))
            (idx + 1 + takeMatchLen rest) j q h
          have ih' := ih (rest.drop (takeMatchLen rest)) (idx + 1 + takeMatchLen rest) j q h
          rw [List.get?_drop] at ih'
          have harith : takeMatchLen rest + (j - (idx + 1 + takeMatchLen rest)) =
              j - idx - 1 := by omega
          rw [harith] at ih'
          have hj : j - idx = (j - idx - 1) + 1 := by omega
          rw [hj, List.get?_cons_succ]
          exact ih'
      · simp only [scanAux, if_neg hct] at h
        have hb := scanAux_bounds fuel rest (idx + 1) j q h
        have ih' := ih rest (idx + 1) j q h
        have hj : j - idx = (j - (idx + 1)) + 1 := by omega
        rw [hj, List.get?_cons_succ]
        exact ih'

theorem scanAux_eq_nil_of_no_trigger (fuel : Nat) :
    ∀ (l : List Char) (idx : Nat), trigger ∉ l → scanAux fuel l idx = [] := by
  induction fuel with
  | zero => intro l idx _; simp [scanAux]
  | succ fuel ih =>
    intro l idx h
    match l with
    | [] => simp [scanAux]
    | c :: rest =>
      have hc : ¬(c = trigger) := by
        intro hc; exact h (hc ▸ List.mem_cons_self c rest)
      simp only [scanAux, if_neg hc]
      exact ih rest (idx + 1) (fun hm => h (List.mem_cons_of_mem c hm))

theorem scanMatches_mem_bounds {text : List Char} {j q : Nat}
    (h : (j, q) ∈ scanMatches text) :
    j + 1 ≤ q ∧ q ≤ text.length ∧ text.get? j = some trigger := by
  have h1 := scanAux_bounds text.length text 0 j q h
  have h3 := scanAux_trigger text.length text 0 j q h
  rw [Nat.sub_zero] at h3
  exact ⟨h1.2.1, by omega, h3⟩

/-- The single preceding character, as the code slices it. -/
theorem take_drop_pred_eq {text : List Char} {j : Nat} {c : Char}
    (hj : j ≠ 0) (hc : text.get? (j - 1) = some c) :
    (text.take j).drop (j - 1) = [c] := by
  obtain ⟨k, rfl⟩ : ∃ k, j = k + 1 := ⟨j - 1, by omega⟩
  simp only [Nat.add_sub_cancel] at hc ⊢
  have hk : k < text.length := by
    by_contra hk'
    push_neg at hk'
    rw [List.get?_eq_none.mpr hk'] at hc
    exact absurd hc (by simp)
  have hc' : text[k]? = some c := by rw [← List.get?_eq_getElem?]; exact hc
  rw [List.take_succ, hc']
  have hlen : (text.take k).length = k := by rw [List.length_take]; omega
  rw [List.drop_left' hlen]
  rfl

theorem mem_of_getLast?_eq {α : Type} {l : List α} {a : α}
    (h : l.getLast? = some a) : a ∈ l := by
  rcases List.mem_getLast?_eq_getLast (Option.mem_def.mpr h) with ⟨hne, rfl⟩
  exact List.getLast_mem hne

/-- Shape of every successful scan: the matched text starts with the
trigger character, the query drops that character, the range width is the
text length, and the cursor lies strictly after the start and at or before
the end. -/
theorem findSuggestionMatch_shape {text : List Char} {s p : Nat}
    {m : SuggestionMatch} (h : findSuggestionMatch text s p = some m) :
    m.text.head? = some trigger ∧ m.query = m.text.drop 1 ∧
    m.range.«to» - m.range.«from» = m.text.length ∧
    m.range.«from» < p ∧ p ≤ m.range.«to» := by
  unfold findSuggestionMatch at h
  cases hlast : (scanMatches text).getLast? with
  | none => rw [hlast] at h; exact absurd h (by simp)
  | some jq =>
    obtain ⟨j, q⟩ := jq
    rw [hlast] at h
    obtain ⟨hjq, hqlen, hget⟩ := scanMatches_mem_bounds (mem_of_getLast?_eq hlast)
    have hmhead : ((text.take q).drop j).head? = some trigger := by
      rw [← List.get?_zero, List.get?_drop, Nat.add_zero, List.get?_take (by omega)]
      exact hget
    obtain ⟨tl, htl⟩ : ∃ tl, (text.take q).drop j = trigger :: tl := by
      cases hmt : (text.take q).drop j with
      | nil => rw [hmt] at hmhead; exact absurd hmhead (by simp)
      | cons a t =>
        rw [hmt] at hmhead
        simp only [List.head?_cons, Option.some.injEq] at hmhead
        exact ⟨t, by rw [hmhead]⟩
    simp only [htl] at h
    split at h
    · exact absurd h (by simp)
    · split at h
      · exact absurd h (by simp)
      · split at h
        · -- the widening edge case applied
          split at h
          case isTrue hcond =>
            simp only [Option.some.injEq] at h
            subst h
            simp only [Bool.and_eq_true, decide_eq_true_eq] at hcond
            refine ⟨by simp, by simp, ?_, ?_, ?_⟩
            · simp only [List.length_cons, List.cons_append, List.length_append,
                List.length_nil]
              omega
            · simpa using hcond.1
            · have := hcond.2
              simp only [List.length_cons] at this ⊢
              omega
          case isFalse => exact absurd h (by simp)
        · -- no widening
          split at h
          case isTrue hcond =>
            simp only [Option.some.injEq] at h
            subst h
            simp only [Bool.and_eq_true, decide_eq_true_eq] at hcond
            refine ⟨by simp, by simp, ?_, ?_, ?_⟩
            · simp only [List.length_cons]
              omega
            · simpa using hcond.1
            · have := hcond.2
              simp only [List.length_cons] at this ⊢
              omega
          case isFalse => exact absurd h (by simp)

/-! ## C9 — no trigger character, no match -/

/-- C9: For every text that contains no occurrence of the trigger character
and for every cursor position within it, the Scanner returns no match. -/
theorem no_trigger_no_match (text : List Char) (startOff pos : Nat)
    (h : trigger ∉ text) : findSuggestionMatch text startOff pos = none := by
  unfold findSuggestionMatch
  rw [show scanMatches text = [] from
    scanAux_eq_nil_of_no_trigger text.length text 0 h]
  rfl

/-- Witness for C9 at the text `"hello"` with cursor offset 3. -/
theorem no_trigger_no_match_witness :
    trigger ∉ ("hello".data) ∧ findSuggestionMatch ("hello".data) 0 3 = none :=
  ⟨by decide, no_trigger_no_match _ 0 3 (by decide)⟩

/-! ## C10 — shape of a successful match -/

/-- C10: whenever the Scanner returns a match, `text` begins with the
trigger character, `query` is `text` without its leading trigger character,
and the range width equals the length of `text` (hence the range's start
is at most its end). -/
theorem match_shape_invariants :
    ∀ (text : List Char) (startOff pos : Nat) (m : SuggestionMatch),
      findSuggestionMatch text startOff pos = some m →
      m.text.head? = some trigger ∧ m.query = m.text.drop 1 ∧
      m.range.«to» - m.range.«from» = m.text.length ∧
      m.range.«from» ≤ m.range.«to» := by
  intro text s p m h
  obtain ⟨h1, h2, h3, _, _⟩ := findSuggestionMatch_shape h
  have hne : 1 ≤ m.text.length := by
    cases hmt : m.text with
    | nil => rw [hmt] at h1; exact absurd h1 (by simp)
    | cons a t => simp [hmt]
  exact ⟨h1, h2, h3, by omega⟩

/-- Witness for C10 at the text `"@bob"` with cursor offset 4. -/
theorem match_shape_invariants_witness :
    findSuggestionMatch ("@bob".data) 0 4 =
      some ⟨⟨0, 4⟩, "bob".data, "@bob".data⟩ ∧
    ("@bob".data).head? = some trigger :=
  ⟨by decide,
   (match_shape_invariants ("@bob".data) 0 4 ⟨⟨0, 4⟩, "bob".data, "@bob".data⟩
     (by decide)).1⟩

/-! ## C8 — embedded trigger is rejected by the look-behind check -/

/-- C8: when the character immediately preceding the candidate trigger span
(the last regex match) is neither whitespace nor the non-printable
placeholder and the span does not start at offset 0, the Scanner returns no
match; in particular, for the text `"x@bob"` it returns no match at every
cursor position (every prefix of the text, i.e. every slice the host would
hand the Scanner). -/
theorem embedded_trigger_no_match :
    (∀ (text : List Char) (startOff pos j q : Nat) (c : Char),
      (scanMatches text).getLast? = some (j, q) → j ≠ 0 →
      text.get? (j - 1) = some c → jsWs c = false → c ≠ placeholder →
      findSuggestionMatch text startOff pos = none) ∧
    (∀ (startOff pos k : Nat), k ≤ 5 →
      findSuggestionMatch (("x@bob".data).take k) startOff pos = none) := by
  constructor
  · intro text s p j q c hlast hj hc hws hph
    unfold findSuggestionMatch
    rw [hlast]
    have hlb : lookBehind ((text.take j).drop (j - 1)) = false := by
      rw [take_drop_pred_eq hj hc]
      simp [lookBehind, hws, hph]
    simp [hlb]
  · intro s p k hk
    interval_cases k <;> rfl

/-- Witness for C8: the general clause applied at `"x@b"` (last match at
index 1, preceded by the letter `x`), and the particular clause applied at
the full text `"x@bob"`. -/
theorem embedded_trigger_no_match_witness :
    findSuggestionMatch ("x@b".data) 0 3 = none ∧
    findSuggestionMatch ("x@bob".data) 0 5 = none := by
  constructor
  · exact embedded_trigger_no_match.1 ("x@b".data) 0 3 1 3 'x' (by decide)
      (by decide) (by decide) (by decide) (by decide)
  · have := embedded_trigger_no_match.2 0 5 5 (by omega)
    simpa using this

/-! ## C4 — decorationId is non-null iff active -/

/-- C4: in the initial plugin state and in every state produced by `apply`,
`decorationId` is non-null exactly when `active` is true. -/
theorem decorationId_nonnull_iff_active :
    (init.decorationId ≠ none ↔ init.active = true) ∧
    ∀ (tx : TxInput) (prev : PluginState),
      ((apply tx prev).decorationId ≠ none ↔ (apply tx prev).active = true) := by
  constructor
  · simp [init]
  · intro tx prev
    unfold apply
    split
    · split
      · split
        · simp
        · simp [inactiveState]
      · simp [inactiveState]
    · simp [inactiveState]

/-! ## C5 — decorationId generation, carry-over, and clearing -/

/-- C5: on a transition from inactive to active a fresh identifier is
generated from the random draw; while the state stays active the previous
identifier is carried forward unchanged; every inactive state has a null
identifier; and across two separate active sessions (separated by an
inactive state) whose random draws render differently, the identifiers
differ — even when the query text is identical.  (A session carries a
non-empty identifier, which the JS truthiness test preserves; the
distinctness of the two random draws stands in for the collision
resistance of `Math.random`.) -/
theorem decorationId_lifecycle :
    (∀ (tx : TxInput) (prev : PluginState),
      prev.active = false → prev.decorationId = none →
      (apply tx prev).active = true →
      (apply tx prev).decorationId = some (freshId tx.rand)) ∧
    (∀ (tx : TxInput) (prev : PluginState) (d : String),
      prev.active = true → prev.decorationId = some d → d.isEmpty = false →
      (apply tx prev).active = true →
      (apply tx prev).decorationId = some d) ∧
    (∀ (tx : TxInput) (prev : PluginState),
      (apply tx prev).active = false → (apply tx prev).decorationId = none) ∧
    (∀ (txa txb txc : TxInput) (s0 : PluginState),
      s0.decorationId = none →
      Nat.repr txa.rand ≠ Nat.repr txc.rand →
      (apply txa s0).active = true →
      (apply txb (apply txa s0)).active = false →
      (apply txc (apply txb (apply txa s0))).active = true →
      (apply txa s0).decorationId = some (freshId txa.rand) ∧
      (apply txc (apply txb (apply txa s0))).decorationId =
        some (freshId txc.rand) ∧
      (apply txc (apply txb (apply txa s0))).decorationId ≠
        (apply txa s0).decorationId) := by
  have hmaster : ∀ (tx : TxInput) (prev : PluginState),
      ((apply tx prev).active = true →
        (apply tx prev).decorationId = some (match prev.decorationId with
          | some d => if d.isEmpty then freshId tx.rand else d
          | none => freshId tx.rand)) ∧
      ((apply tx prev).active = false →
        (apply tx prev).decorationId = none) := by
    intro tx prev
    unfold apply
    by_cases hec : (tx.empty || tx.composing) = true
    · rw [if_pos hec]
      cases hm : findSuggestionMatch tx.text tx.startOff tx.pos with
      | none =>
        exact ⟨fun h => absurd h (by simp [inactiveState]),
               fun _ => by simp [inactiveState]⟩
      | some m =>
        simp only
        by_cases hal : tx.allow m.range = true
        · rw [if_pos hal]
          exact ⟨fun _ => rfl, fun h => absurd h (by simp)⟩
        · rw [if_neg hal]
          exact ⟨fun h => absurd h (by simp [inactiveState]),
                 fun _ => by simp [inactiveState]⟩
    · rw [if_neg hec]
      exact ⟨fun h => absurd h (by simp [inactiveState]),
             fun _ => by simp [inactiveState]⟩
  have hfresh : ∀ (tx : TxInput) (prev : PluginState),
      prev.decorationId = none → (apply tx prev).active = true →
      (apply tx prev).decorationId = some (freshId tx.rand) := by
    intro tx prev hid hact
    have h1 := (hmaster tx prev).1 hact
    rw [hid] at h1
    exact h1
  refine ⟨fun tx prev _ hid hact => hfresh tx prev hid hact, ?_,
    fun tx prev => (hmaster tx prev).2, ?_⟩
  · intro tx prev d _ hid hne hact
    have h1 := (hmaster tx prev).1 hact
    rw [hid] at h1
    exact h1.trans (by simp [hne])
  · intro txa txb txc s0 h0 hrand h1 h2 h3
    have e1 := hfresh txa s0 h0 h1
    have e2 := (hmaster txb (apply txa s0)).2 h2
    have e3 := hfresh txc (apply txb (apply txa s0)) e2 h3
    refine ⟨e1, e3, ?_⟩
    rw [e1, e3]
    intro hcontra
    simp only [Option.some.injEq] at hcontra
    apply hrand
    have hd : (freshId txc.rand).data = (freshId txa.rand).data := by
      rw [hcontra]
    simp only [freshId, String.data_append] at hd
    exact (String.ext (List.append_cancel_left hd)).symm

/-- Witness for C5: a run that activates with draw 0, deactivates, and
reactivates with draw 1 on the same query text. -/
theorem decorationId_lifecycle_witness :
    ((apply ⟨true, false, "@b".data, 0, 2, fun _ => true, 0⟩ init).active = true ∧
     (apply ⟨true, false, [], 0, 0, fun _ => true, 0⟩
       (apply ⟨true, false, "@b".data, 0, 2, fun _ => true, 0⟩ init)).active = false ∧
     (apply ⟨true, false, "@b".data, 0, 2, fun _ => true, 1⟩
       (apply ⟨true, false, [], 0, 0, fun _ => true, 0⟩
         (apply ⟨true, false, "@b".data, 0, 2, fun _ => true, 0⟩ init))).active = true) ∧
    (apply ⟨true, false, "@b".data, 0, 2, fun _ => true, 1⟩
       (apply ⟨true, false, [], 0, 0, fun _ => true, 0⟩
         (apply ⟨true, false, "@b".data, 0, 2, fun _ => true, 0⟩ init))).decorationId ≠
      (apply ⟨true, false, "@b".data, 0, 2, fun _ => true, 0⟩ init).decorationId :=
  ⟨⟨by decide, by decide, by decide⟩,
   (decorationId_lifecycle.2.2.2
     ⟨true, false, "@b".data, 0, 2, fun _ => true, 0⟩
     ⟨true, false, [], 0, 0, fun _ => true, 0⟩
     ⟨true, false, "@b".data, 0, 2, fun _ => true, 1⟩ init
     (by decide) (by decide) (by decide) (by decide) (by decide)).2.2⟩

/-! ## C1 — the `moved` transition -/

/-- C1 counterexample: on a `moved` transition (both sessions active, the
start offsets differ) the single `props` value is built from
`state = handleExit && !handleStart ? prev : next`, which is `next` here, so
`onExit` is invoked with the NEW session's range, query and text — not the
old session's as the claim states. -/
theorem moved_exit_gets_new_props :
    viewUpdate ⟨true, some ⟨1, 3⟩, some ['a'], some ['@', 'a'], some "id_1"⟩
        ⟨true, some ⟨5, 8⟩, some ['b', 'o'], some ['@', 'b', 'o'], some "id_1"⟩ =
      [HookCall.exit ⟨some ⟨5, 8⟩, some ['b', 'o'], some ['@', 'b', 'o']⟩,
       HookCall.start ⟨some ⟨5, 8⟩, some ['b', 'o'], some ['@', 'b', 'o']⟩] ∧
    (⟨some ⟨5, 8⟩, some ['b', 'o'], some ['@', 'b', 'o']⟩ : HookProps) ≠
      dataOf ⟨true, some ⟨1, 3⟩, some ['a'], some ['@', 'a'], some "id_1"⟩ := by
  decide

/-- C1 (amended): on every `moved` transition `onExit` fires and then
`onStart`, in that order within the same update, and `onUpdate` is not
invoked; both hooks receive the NEW session's range, query and text. -/
theorem moved_fires_exit_then_start :
    ∀ (prev next : PluginState), prev.active = true → next.active = true →
      fromOf prev ≠ fromOf next →
      viewUpdate prev next =
        [HookCall.exit (dataOf next), HookCall.start (dataOf next)] := by
  intro prev next hp hn hf
  have hb : (fromOf prev == fromOf next) = false := beq_eq_false_iff_ne.mpr hf
  simp [viewUpdate, hp, hn, hb]

/-- Witness for C1's amended theorem at two concrete active sessions with
different start offsets. -/
theorem moved_fires_exit_then_start_witness :
    viewUpdate ⟨true, some ⟨0, 2⟩, some ['a'], some ['@', 'a'], some "x"⟩
        ⟨true, some ⟨4, 6⟩, some ['a'], some ['@', 'a'], some "x"⟩ =
      [HookCall.exit
         (dataOf ⟨true, some ⟨4, 6⟩, some ['a'], some ['@', 'a'], some "x"⟩),
       HookCall.start
         (dataOf ⟨true, some ⟨4, 6⟩, some ['a'], some ['@', 'a'], some "x"⟩)] :=
  moved_fires_exit_then_start _ _ rfl rfl (by decide)

/-! ## C3 — the start/update/exit lifecycle sequence -/

/-- C3: for a sequence of states inactive → active (query `"b"`) → active
(query `"bo"`, same start offset) → inactive, the hooks fired are exactly
`onStart`, then `onUpdate`, then `onExit`, in that order, and `onUpdate`
receives the active second session's data (never an inactive state's). -/
theorem lifecycle_sequence :
    ∀ (s0 s1 s2 s3 : PluginState),
      s0.active = false → s1.active = true → s1.query = some ['b'] →
      s2.active = true → s2.query = some ['b', 'o'] →
      fromOf s1 = fromOf s2 → s3.active = false →
      viewUpdate s0 s1 ++ viewUpdate s1 s2 ++ viewUpdate s2 s3 =
        [HookCall.start (dataOf s1), HookCall.update (dataOf s2),
         HookCall.exit (dataOf s2)] ∧ s2.active = true := by
  intro s0 s1 s2 s3 h0 h1 h1q h2 h2q hf h3
  refine ⟨?_, h2⟩
  have hq : (s1.query == s2.query) = false := by
    rw [h1q, h2q]; decide
  have e1 : viewUpdate s0 s1 = [HookCall.start (dataOf s1)] := by
    simp [viewUpdate, h0, h1]
  have e2 : viewUpdate s1 s2 = [HookCall.update (dataOf s2)] := by
    simp [viewUpdate, h1, h2, hq, hf]
  have e3 : viewUpdate s2 s3 = [HookCall.exit (dataOf s2)] := by
    simp [viewUpdate, h2, h3]
  rw [e1, e2, e3]
  rfl

/-- Witness for C3 at concrete states. -/
theorem lifecycle_sequence_witness :
    viewUpdate inactiveState
        ⟨true, some ⟨0, 2⟩, some ['b'], some ['@', 'b'], some "i"⟩ ++
      viewUpdate ⟨true, some ⟨0, 2⟩, some ['b'], some ['@', 'b'], some "i"⟩
        ⟨true, some ⟨0, 3⟩, some ['b', 'o'], some ['@', 'b', 'o'], some "i"⟩ ++
      viewUpdate ⟨true, some ⟨0, 3⟩, some ['b', 'o'], some ['@', 'b', 'o'], some "i"⟩
        inactiveState =
      [HookCall.start
         (dataOf ⟨true, some ⟨0, 2⟩, some ['b'], some ['@', 'b'], some "i"⟩),
       HookCall.update
         (dataOf ⟨true, some ⟨0, 3⟩, some ['b', 'o'], some ['@', 'b', 'o'], some "i"⟩),
       HookCall.exit
         (dataOf ⟨true, some ⟨0, 3⟩, some ['b', 'o'], some ['@', 'b', 'o'], some "i"⟩)] :=
  (lifecycle_sequence _ _ _ _ rfl rfl rfl rfl rfl (by decide) rfl).1

/-! ## C6 — when a session may be active -/

/-- C6 counterexample: with a non-collapsed selection but an in-progress
composition, `apply` still runs the Scanner and produces an ACTIVE session:
a session can be active while the selection is not a collapsed cursor. -/
theorem active_during_composition :
    (apply ⟨false, true, "@b".data, 0, 2, fun _ => true, 0⟩ init).active = true ∧
    (⟨false, true, "@b".data, 0, 2, fun _ => true, 0⟩ : TxInput).empty = false :=
  ⟨by decide, rfl⟩

/-- C6 (amended): `apply` yields an inactive session — without invoking the
Scanner (its result does not depend on the Scanner's inputs) — whenever the
selection is not collapsed and no composition is in progress; and a session
is active only when the selection is collapsed OR a composition is in
progress, with an allowed Scanner match whose span strictly precedes the
cursor and ends at or after it. -/
theorem active_requires_collapsed_or_composing :
    (∀ (tx : TxInput) (prev : PluginState),
      tx.empty = false → tx.composing = false → apply tx prev = inactiveState) ∧
    (∀ (tx : TxInput) (prev : PluginState) (t2 : List Char) (s2 p2 : Nat),
      tx.empty = false → tx.composing = false →
      apply { tx with text := t2, startOff := s2, pos := p2 } prev =
        apply tx prev) ∧
    (∀ (tx : TxInput) (prev : PluginState), (apply tx prev).active = true →
      (tx.empty = true ∨ tx.composing = true) ∧
      ∃ m, findSuggestionMatch tx.text tx.startOff tx.pos = some m ∧
        tx.allow m.range = true ∧ (apply tx prev).range = some m.range ∧
        m.range.«from» < tx.pos ∧ tx.pos ≤ m.range.«to») := by
  have hpart1 : ∀ (tx : TxInput) (prev : PluginState),
      tx.empty = false → tx.composing = false → apply tx prev = inactiveState := by
    intro tx prev he hc
    unfold apply
    rw [if_neg]
    rw [he, hc]
    simp
  refine ⟨hpart1, ?_, ?_⟩
  · intro tx prev t2 s2 p2 he hc
    rw [hpart1 tx prev he hc]
    exact hpart1 _ prev he hc
  · intro tx prev hact
    by_cases hec : (tx.empty || tx.composing) = true
    · refine ⟨by simpa using hec, ?_⟩
      unfold apply at hact ⊢
      rw [if_pos hec] at hact ⊢
      cases hm : findSuggestionMatch tx.text tx.startOff tx.pos with
      | none =>
        rw [hm] at hact
        exact absurd hact (by simp [inactiveState])
      | some m =>
        rw [hm] at hact
        simp only at hact ⊢
        by_cases hal : tx.allow m.range = true
        · rw [if_pos hal] at hact ⊢
          obtain ⟨_, _, _, hlt, hle⟩ := findSuggestionMatch_shape hm
          exact ⟨m, rfl, hal, rfl, hlt, hle⟩
        · rw [if_neg hal] at hact
          exact absurd hact (by simp [inactiveState])
    · have := hpart1 tx prev (by revert hec; cases tx.empty <;> simp)
        (by revert hec; cases tx.composing <;> simp)
      rw [this] at hact
      exact absurd hact (by simp [inactiveState])

/-- Witness for C6's amended theorem: a ranged, non-composing transaction
produces the inactive state whatever the text; and the concrete active
session exhibits the collapsed-or-composing requirement with its match. -/
theorem active_requires_collapsed_or_composing_witness :
    apply ⟨false, false, "@b".data, 0, 2, fun _ => true, 0⟩ init = inactiveState ∧
    apply ⟨false, false, "zzz".data, 5, 9, fun _ => true, 0⟩ init =
      apply ⟨false, false, "@b".data, 0, 2, fun _ => true, 0⟩ init ∧
    (((⟨true, false, "@b".data, 0, 2, fun _ => true, 0⟩ : TxInput).empty = true ∨
      (⟨true, false, "@b".data, 0, 2, fun _ => true, 0⟩ : TxInput).composing = true) ∧
     ∃ m, findSuggestionMatch "@b".data 0 2 = some m ∧
       (fun _ => true : SRange → Bool) m.range = true ∧
       (apply ⟨true, false, "@b".data, 0, 2, fun _ => true, 0⟩ init).range =
         some m.range ∧
       m.range.«from» < 2 ∧ 2 ≤ m.range.«to») :=
  ⟨active_requires_collapsed_or_composing.1 _ init rfl rfl,
   active_requires_collapsed_or_composing.2.1
     ⟨false, false, "@b".data, 0, 2, fun _ => true, 0⟩ init "zzz".data 5 9 rfl rfl,
   active_requires_collapsed_or_composing.2.2
     ⟨true, false, "@b".data, 0, 2, fun _ => true, 0⟩ init (by decide)⟩

/-! ## C7 — wholesale replacement versus in-place mutation -/

/-- C7 counterexample: committing while the node after the selection end is
a space-leading text node mutates the captured session's range in place:
`range.to` is incremented from 2 to 3, so a previously produced session's
range IS modified by a later operation (commit). -/
theorem commit_mutates_range :
    (command ⟨[DocItem.ch '@', DocItem.ch 'b', DocItem.ch ' '],
        ⟨0, 2⟩, 2, []⟩).range = ⟨0, 3⟩ ∧
    (⟨0, 3⟩ : SRange) ≠ ⟨0, 2⟩ := by
  decide

/-- C7 (amended): `apply` replaces the session wholesale — its result
depends on the previous state only through `decorationId`, every other
field being rebuilt from the current transaction — but the commit `command`
mutates the captured session's range in place: `range.from` is never
changed, and `range.to` is incremented by one exactly when the node after
the current selection end is a text node starting with a space. -/
theorem session_replacement_and_commit_mutation :
    (∀ (tx : TxInput) (p1 p2 : PluginState), p1.decorationId = p2.decorationId →
      apply tx p1 = apply tx p2) ∧
    (∀ (inp : CommandInput),
      (command inp).range.«from» = inp.range.«from» ∧
      ((command inp).range = inp.range ↔
        nodeAfterStartsWithSpace inp.doc inp.selTo = false) ∧
      (nodeAfterStartsWithSpace inp.doc inp.selTo = true →
        (command inp).range.«to» = inp.range.«to» + 1)) := by
  constructor
  · intro tx p1 p2 h
    unfold apply
    rw [h]
  · intro inp
    obtain ⟨doc, ⟨f, t⟩, selTo, attrs⟩ := inp
    simp only [command]
    cases hso : nodeAfterStartsWithSpace doc selTo with
    | false =>
      refine ⟨trivial, ?_, ?_⟩
      · simp
      · intro h
        cases h
    | true =>
      refine ⟨trivial, ?_, ?_⟩
      · simp
      · intro _
        simp

/-- Witness for C7's amended theorem: two previous states sharing a
`decorationId` produce the same next state, and a concrete commit leaves
the range unchanged exactly when no space follows the selection end. -/
theorem session_replacement_and_commit_mutation_witness :
    apply ⟨true, false, "@b".data, 0, 2, fun _ => true, 3⟩
        ⟨true, some ⟨0, 2⟩, some ['b'], some ['@', 'b'], some "k"⟩ =
      apply ⟨true, false, "@b".data, 0, 2, fun _ => true, 3⟩
        ⟨false, none, none, none, some "k"⟩ ∧
    ((command ⟨[DocItem.ch '@', DocItem.ch 'b', DocItem.ch 'x'],
        ⟨0, 2⟩, 2, []⟩).range =
      (⟨[DocItem.ch '@', DocItem.ch 'b', DocItem.ch 'x'],
        ⟨0, 2⟩, 2, []⟩ : CommandInput).range ↔
      nodeAfterStartsWithSpace [DocItem.ch '@', DocItem.ch 'b', DocItem.ch 'x'] 2 =
        false) :=
  ⟨session_replacement_and_commit_mutation.1 _ _ _ rfl,
   (session_replacement_and_commit_mutation.2
     ⟨[DocItem.ch '@', DocItem.ch 'b', DocItem.ch 'x'], ⟨0, 2⟩, 2, []⟩).2.1⟩

/-! ## C2 — the commit's trailing-space handling -/

/-- C2 counterexample: `command` inspects the node after the CURRENT
SELECTION's end (`selection.$to.nodeAfter`), not the node after the
session's end offset.  Here the session range is `[0, 2)`, the node after
the session's end (offset 2) is a space-leading text node, but the
selection ends at offset 1: the replacement end is NOT extended (the range
stays `[0, 2)`), and the committed document carries TWO consecutive spaces
after the mention — refuting both the claimed inspection point and the
claimed exactly-one-trailing-whitespace invariant. -/
theorem commit_inspects_selection_not_session :
    nodeAfterStartsWithSpace
      [DocItem.ch '@', DocItem.ch 'b', DocItem.ch ' ', DocItem.ch 'x'] 2 = true ∧
    command ⟨[DocItem.ch '@', DocItem.ch 'b', DocItem.ch ' ', DocItem.ch 'x'],
        ⟨0, 2⟩, 1, []⟩ =
      ⟨[DocItem.mention [], DocItem.ch ' ', DocItem.ch ' ', DocItem.ch 'x'],
       ⟨0, 2⟩⟩ ∧
    wsItemAt [DocItem.mention [], DocItem.ch ' ', DocItem.ch ' ', DocItem.ch 'x']
      1 = true ∧
    wsItemAt [DocItem.mention [], DocItem.ch ' ', DocItem.ch ' ', DocItem.ch 'x']
      2 = true := by
  decide

/-- C2 (amended): `command` inspects the node after the CURRENT SELECTION's
end offset and extends the replacement's end by one exactly when that node
is a text node beginning with a space character; the span is replaced by
the mention node carrying the supplied attributes followed by a single
space text node.  When the selection's end coincides with the session's end
and the text following the span begins with at most one leading whitespace
character — which, when present, is a plain space — the committed document
holds the mention at `range.from` followed by exactly one space and then a
non-whitespace continuation: a single pre-existing following space is
consumed rather than duplicated. -/
theorem commit_single_trailing_space :
    ∀ (inp : CommandInput),
      inp.selTo = inp.range.«to» →
      inp.range.«from» ≤ inp.range.«to» → inp.range.«to» ≤ inp.doc.length →
      ((command inp).range.«to» =
        if nodeAfterStartsWithSpace inp.doc inp.range.«to»
        then inp.range.«to» + 1 else inp.range.«to») ∧
      (command inp).doc.get? inp.range.«from» =
        some (DocItem.mention inp.attrs) ∧
      (command inp).doc.get? (inp.range.«from» + 1) = some (DocItem.ch ' ') ∧
      (followOk inp.doc inp.range.«to» = true →
        wsItemAt (command inp).doc (inp.range.«from» + 2) = false) := by
  intro inp hsel hft htl
  obtain ⟨doc, ⟨f, t⟩, selTo, attrs⟩ := inp
  simp only at hsel hft htl
  subst selTo
  have hlen1 : (doc.take f).length = f := by rw [List.length_take]; omega
  have hget : ∀ (rest : List DocItem) (i : Nat),
      (doc.take f ++ rest).get? (f + i) = rest.get? i := by
    intro rest i
    rw [List.get?_append_right (by rw [hlen1]; omega)]
    rw [hlen1]
    congr 1
    omega
  have hnd : (command ⟨doc, ⟨f, t⟩, t, attrs⟩).doc =
      doc.take f ++ ([DocItem.mention attrs, DocItem.ch ' '] ++
        doc.drop (if nodeAfterStartsWithSpace doc t then t + 1 else t)) := by
    simp [command, List.append_assoc]
  refine ⟨rfl, ?_, ?_, ?_⟩
  · show (command ⟨doc, ⟨f, t⟩, t, attrs⟩).doc.get? f =
      some (DocItem.mention attrs)
    rw [hnd]
    exact hget ([DocItem.mention attrs, DocItem.ch ' '] ++
      doc.drop (if nodeAfterStartsWithSpace doc t then t + 1 else t)) 0
  · show (command ⟨doc, ⟨f, t⟩, t, attrs⟩).doc.get? (f + 1) =
      some (DocItem.ch ' ')
    rw [hnd]
    exact hget ([DocItem.mention attrs, DocItem.ch ' '] ++
      doc.drop (if nodeAfterStartsWithSpace doc t then t + 1 else t)) 1
  · intro hfo
    replace hfo : followOk doc t = true := hfo
    show wsItemAt (command ⟨doc, ⟨f, t⟩, t, attrs⟩).doc (f + 2) = false
    have hx : (command ⟨doc, ⟨f, t⟩, t, attrs⟩).doc.get? (f + 2) =
        doc.get? (if nodeAfterStartsWithSpace doc t then t + 1 else t) := by
      rw [hnd]
      refine (hget ([DocItem.mention attrs, DocItem.ch ' '] ++
        doc.drop (if nodeAfterStartsWithSpace doc t then t + 1 else t)) 2).trans ?_
      show (doc.drop (if nodeAfterStartsWithSpace doc t then t + 1 else t)).get? 0 =
        doc.get? (if nodeAfterStartsWithSpace doc t then t + 1 else t)
      rw [List.get?_drop]
      simp
    have hws : wsItemAt (command ⟨doc, ⟨f, t⟩, t, attrs⟩).doc (f + 2) =
        wsItemAt doc (if nodeAfterStartsWithSpace doc t then t + 1 else t) := by
      unfold wsItemAt
      rw [hx]
    rw [hws]
    cases hgt : doc.get? t with
    | none =>
      have hso : nodeAfterStartsWithSpace doc t = false := by
        unfold nodeAfterStartsWithSpace
        rw [hgt]
      rw [hso]
      simp only [Bool.false_eq_true, if_false]
      unfold wsItemAt
      rw [hgt]
    | some item =>
      cases item with
      | ch c =>
        by_cases hc : c = ' '
        · subst hc
          have hso : nodeAfterStartsWithSpace doc t = true := by
            unfold nodeAfterStartsWithSpace
            rw [hgt]
            simp
          rw [hso]
          simp only [if_true]
          unfold followOk at hfo
          rw [hgt] at hfo
          simp only [eq_self_iff_true, if_true, Bool.not_eq_true'] at hfo
          exact hfo
        · have hso : nodeAfterStartsWithSpace doc t = false := by
            unfold nodeAfterStartsWithSpace
            rw [hgt]
            simp [hc]
          rw [hso]
          simp only [Bool.false_eq_true, if_false]
          unfold followOk at hfo
          rw [hgt] at hfo
          simp only [if_neg hc, Bool.not_eq_true'] at hfo
          unfold wsItemAt
          rw [hgt]
          exact hfo
      | mention a =>
        have hso : nodeAfterStartsWithSpace doc t = false := by
          unfold nodeAfterStartsWithSpace
          rw [hgt]
        rw [hso]
        simp only [Bool.false_eq_true, if_false]
        unfold wsItemAt
        rw [hgt]
      | atom =>
        have hso : nodeAfterStartsWithSpace doc t = false := by
          unfold nodeAfterStartsWithSpace
          rw [hgt]
        rw [hso]
        simp only [Bool.false_eq_true, if_false]
        unfold wsItemAt
        rw [hgt]

/-- Witness for C2's amended theorem: committing `@b` over `"@b x"` (session
end 2, selection end 2, a single following space) consumes the space and
leaves exactly one space between the mention and `x`. -/
theorem commit_single_trailing_space_witness :
    ((command ⟨[DocItem.ch '@', DocItem.ch 'b', DocItem.ch ' ', DocItem.ch 'x'],
        ⟨0, 2⟩, 2, []⟩).range.«to» =
      if nodeAfterStartsWithSpace
          [DocItem.ch '@', DocItem.ch 'b', DocItem.ch ' ', DocItem.ch 'x'] 2
      then 2 + 1 else 2) ∧
    (command ⟨[DocItem.ch '@', DocItem.ch 'b', DocItem.ch ' ', DocItem.ch 'x'],
        ⟨0, 2⟩, 2, []⟩).doc.get? 0 = some (DocItem.mention []) ∧
    (command ⟨[DocItem.ch '@', DocItem.ch 'b', DocItem.ch ' ', DocItem.ch 'x'],
        ⟨0, 2⟩, 2, []⟩).doc.get? (0 + 1) = some (DocItem.ch ' ') ∧
    (followOk [DocItem.ch '@', DocItem.ch 'b', DocItem.ch ' ', DocItem.ch 'x']
        2 = true →
      wsItemAt (command ⟨[DocItem.ch '@', DocItem.ch 'b', DocItem.ch ' ',
        DocItem.ch 'x'], ⟨0, 2⟩, 2, []⟩).doc (0 + 2) = false) :=
  commit_single_trailing_space
    ⟨[DocItem.ch '@', DocItem.ch 'b', DocItem.ch ' ', DocItem.ch 'x'],
     ⟨0, 2⟩, 2, []⟩ rfl (by decide) (by decide)

end Mention
